import Mathlib

/-!
Verification development for the OCR response-normalization engine in
`runpod-deploy/ocr.py`.  The Python source is shallowly embedded: each
Python function used by the claims becomes an executable Lean definition
(JSON parsing is modelled by a fuel-based recursive-descent parser that
follows the grammar accepted by Python's `json.loads`).
-/

namespace OcrSpec

/-- Model of a JSON value as produced by Python's `json.loads`.  Numbers keep
their source lexeme (the claims never compare numeric magnitudes), objects
keep their fields in source order; lookup is last-wins, matching a Python
dict built by repeated insertion. -/
inductive JValue where
  | null
  | bool (b : Bool)
  | num (lit : String)
  | str (s : String)
  | arr (elems : List JValue)
  | obj (fields : List (String × JValue))

/-- JSON whitespace, as skipped by Python's json scanner. -/
def jWs (c : Char) : Bool := c = ' ' || c = '\t' || c = '\n' || c = '\r'

/-- Skip JSON whitespace. -/
def skipWs (s : List Char) : List Char := s.dropWhile jWs

/-- Count how many leading characters of the list equal `c`. -/
def countLeading (c : Char) : List Char → Nat
  | [] => 0
  | x :: xs => if x = c then countLeading c xs + 1 else 0

/-- Value of a hex digit, if the character is one. -/
def hexDigit? (c : Char) : Option Nat :=
  if '0' ≤ c ∧ c ≤ '9' then some (c.toNat - 48)
  else if 'a' ≤ c ∧ c ≤ 'f' then some (c.toNat - 87)
  else if 'A' ≤ c ∧ c ≤ 'F' then some (c.toNat - 55)
  else none

/-- Read four hex digits (the payload of a `\u` escape). -/
def hex4 : List Char → Option (Nat × List Char)
  | a :: b :: c :: d :: r =>
    match hexDigit? a, hexDigit? b, hexDigit? c, hexDigit? d with
    | some x, some y, some z, some w => some ((((x * 16 + y) * 16 + z) * 16 + w), r)
    | _, _, _, _ => none
  | _ => none

/-- Single-character string escapes accepted by the json scanner. -/
def escChar : Char → Option Char
  | '"' => some '"'
  | '\\' => some '\\'
  | '/' => some '/'
  | 'b' => some '\x08'
  | 'f' => some '\x0c'
  | 'n' => some '\n'
  | 'r' => some '\r'
  | 't' => some '\t'
  | _ => none

/-- Parse the body of a JSON string (the opening quote already consumed),
returning the decoded characters and the input after the closing quote.
Strict mode: unescaped control characters are rejected.  Surrogate pairs are
combined; a lone surrogate is rejected (a Lean `Char` cannot carry one). -/
def parseStrF : Nat → List Char → Option (List Char × List Char)
  | 0, _ => none
  | g + 1, s =>
    match s with
    | [] => none
    | '"' :: r => some ([], r)
    | '\\' :: r =>
      match r with
      | 'u' :: r2 =>
        match hex4 r2 with
        | none => none
        | some (n, r3) =>
          if 0xD800 ≤ n ∧ n ≤ 0xDBFF then
            match r3 with
            | '\\' :: 'u' :: r4 =>
              match hex4 r4 with
              | none => none
              | some (m, r5) =>
                if 0xDC00 ≤ m ∧ m ≤ 0xDFFF then
                  (parseStrF g r5).map
                    (fun p => (Char.ofNat (0x10000 + (n - 0xD800) * 0x400 + (m - 0xDC00)) :: p.1, p.2))
                else none
            | _ => none
          else if 0xDC00 ≤ n ∧ n ≤ 0xDFFF then none
          else (parseStrF g r3).map (fun p => (Char.ofNat n :: p.1, p.2))
      | e :: r2 =>
        match escChar e with
        | some c => (parseStrF g r2).map (fun p => (c :: p.1, p.2))
        | none => none
      | [] => none
    | c :: r =>
      if c.toNat < 0x20 then none
      else (parseStrF g r).map (fun p => (c :: p.1, p.2))

/-- Longest run of leading decimal digits, and the rest. -/
def takeDigits (s : List Char) : List Char × List Char :=
  (s.takeWhile Char.isDigit, s.dropWhile Char.isDigit)

/-- Optional fraction part `(\.\d+)?` of the json NUMBER pattern. -/
def fracPart (s : List Char) : List Char × List Char :=
  match s with
  | '.' :: r =>
    let p := takeDigits r
    if p.1 = [] then ([], s) else ('.' :: p.1, p.2)
  | _ => ([], s)

/-- Optional exponent part `([eE][-+]?\d+)?` of the json NUMBER pattern. -/
def expPart (s : List Char) : List Char × List Char :=
  match s with
  | c :: r =>
    if c = 'e' ∨ c = 'E' then
      let signAndRest : List Char × List Char :=
        match r with
        | '+' :: r3 => (['+'], r3)
        | '-' :: r3 => (['-'], r3)
        | _ => ([], r)
      let p := takeDigits signAndRest.2
      if p.1 = [] then ([], s) else (c :: (signAndRest.1 ++ p.1), p.2)
    else ([], s)
  | [] => ([], s)

/-- Lex a JSON number per Python's NUMBER_RE
`(-?(?:0|[1-9]\d*))(\.\d+)?([eE][-+]?\d+)?`, returning the lexeme. -/
def parseNum (s : List Char) : Option (List Char × List Char) :=
  let signAndRest : List Char × List Char :=
    match s with
    | '-' :: r => (['-'], r)
    | _ => ([], s)
  let intPart : Option (List Char × List Char) :=
    match signAndRest.2 with
    | '0' :: r => some (['0'], r)
    | c :: r => if c.isDigit then some (c :: (takeDigits r).1, (takeDigits r).2) else none
    | [] => none
  match intPart with
  | none => none
  | some (ip, r1) =>
    let fp := fracPart r1
    let ep := expPart fp.2
    some (signAndRest.1 ++ ip ++ fp.1 ++ ep.1, ep.2)

/-- Parse the elements of a non-empty JSON array (after `[` and leading
whitespace), given a parser `pv` for a single value. -/
def parseElems (pv : List Char → Option (JValue × List Char)) :
    Nat → List Char → Option (List JValue × List Char)
  | 0, _ => none
  | g + 1, s =>
    match pv s with
    | none => none
    | some (v, r) =>
      match skipWs r with
      | ']' :: r2 => some ([v], r2)
      | ',' :: r2 =>
        match parseElems pv g r2 with
        | some (vs, r3) => some (v :: vs, r3)
        | none => none
      | _ => none

/-- Parse the members of a non-empty JSON object (after `{` and leading
whitespace), given a parser `pv` for a single value.  Keys must be
double-quoted strings, as in Python's strict mode. -/
def parseMembers (pv : List Char → Option (JValue × List Char)) :
    Nat → List Char → Option (List (String × JValue) × List Char)
  | 0, _ => none
  | g + 1, s =>
    match skipWs s with
    | '"' :: r =>
      match parseStrF (r.length + 1) r with
      | none => none
      | some (kcs, r1) =>
        match skipWs r1 with
        | ':' :: r2 =>
          match pv r2 with
          | none => none
          | some (v, r3) =>
            match skipWs r3 with
            | '}' :: r4 => some ([(String.mk kcs, v)], r4)
            | ',' :: r4 =>
              match parseMembers pv g r4 with
              | some (ms, r5) => some ((String.mk kcs, v) :: ms, r5)
              | none => none
            | _ => none
        | _ => none
    | _ => none

/-- One layer of JSON value parsing; `pv` parses nested values.  The branch
order mirrors Python's scanner: string, object, array, the three keyword
literals, number, then the non-standard constants it also accepts. -/
def parseValueCore (pv : List Char → Option (JValue × List Char)) (s0 : List Char) :
    Option (JValue × List Char) :=
  match skipWs s0 with
  | [] => none
  | c :: rest =>
    if c = '"' then
      (parseStrF (rest.length + 1) rest).map (fun p => (JValue.str (String.mk p.1), p.2))
    else if c = '{' then
      match skipWs rest with
      | '}' :: r2 => some (JValue.obj [], r2)
      | r2 => (parseMembers pv (r2.length + 1) r2).map (fun p => (JValue.obj p.1, p.2))
    else if c = '[' then
      match skipWs rest with
      | ']' :: r2 => some (JValue.arr [], r2)
      | r2 => (parseElems pv (r2.length + 1) r2).map (fun p => (JValue.arr p.1, p.2))
    else if "null".data.isPrefixOf (c :: rest) then some (JValue.null, (c :: rest).drop 4)
    else if "true".data.isPrefixOf (c :: rest) then some (JValue.bool true, (c :: rest).drop 4)
    else if "false".data.isPrefixOf (c :: rest) then some (JValue.bool false, (c :: rest).drop 5)
    else
      match parseNum (c :: rest) with
      | some (lit, r) => some (JValue.num (String.mk lit), r)
      | none =>
        if "NaN".data.isPrefixOf (c :: rest) then some (JValue.num "NaN", (c :: rest).drop 3)
        else if "Infinity".data.isPrefixOf (c :: rest) then
          some (JValue.num "Infinity", (c :: rest).drop 8)
        else if "-Infinity".data.isPrefixOf (c :: rest) then
          some (JValue.num "-Infinity", (c :: rest).drop 9)
        else none

/-- Fuel-indexed JSON value parser. -/
def parseValue : Nat → List Char → Option (JValue × List Char)
  | 0, _ => none
  | f + 1, s => parseValueCore (parseValue f) s

/-- Model of Python's `json.loads` on a character list: parse one value and
require only whitespace to remain (otherwise Python raises "Extra data",
which we model as `none`). -/
def json_loads (cs : List Char) : Option JValue :=
  match parseValue (cs.length + 2) cs with
  | some (v, r) => if skipWs r = [] then some v else none
  | none => none

example : json_loads "hello world".data = none := rfl
example : json_loads "5".data = some (JValue.num "5") := rfl
example : json_loads "[1, 2, 3]".data
    = some (JValue.arr [JValue.num "1", JValue.num "2", JValue.num "3"]) := rfl
example : json_loads " [true, null, \"a b\", -0.5e+2] ".data
    = some (JValue.arr [JValue.bool true, JValue.null, JValue.str "a b", JValue.num "-0.5e+2"]) := rfl
example : json_loads "[1,]".data = none := rfl
example : json_loads "01".data = none := rfl

/-! ### The chunk-response repairer (`parse_bbox_response`, ocr.py lines 209-257) -/

/-- Whitespace stripped by Python's `str.strip()` (the ASCII part). -/
def pyWs (c : Char) : Bool :=
  c = ' ' || c = '\t' || c = '\n' || c = '\r' || c = '\x0b' || c = '\x0c'

/-- Model of Python's `str.strip()`. -/
def pyStrip (l : List Char) : List Char :=
  ((l.dropWhile pyWs).reverse.dropWhile pyWs).reverse

/-- Split a character list on every occurrence of `c`, Python `str.split(c)`:
the result is never empty and an empty input yields one empty part. -/
def splitOnChar (c : Char) : List Char → List (List Char)
  | [] => [[]]
  | x :: xs =>
    match splitOnChar c xs with
    | [] => [[]]
    | h :: t => if x = c then [] :: h :: t else (x :: h) :: t

/-- Split at the first occurrence of `c` (Python `str.split(c, 1)` when `c`
occurs), returning the parts before and after it. -/
def splitFirst (c : Char) : List Char → Option (List Char × List Char)
  | [] => none
  | x :: xs =>
    if x = c then some ([], xs)
    else (splitFirst c xs).map (fun p => (x :: p.1, p.2))

/-- Markdown fence stripping (ocr.py lines 213-219): drop the first line and,
if the last remaining line strips to a bare fence, drop it too. -/
def fenceStrip (cs : List Char) : List Char :=
  let lines := (splitOnChar '\n' cs).drop 1
  let kept :=
    match lines.getLast? with
    | some lst => if pyStrip lst = "```".data then lines.dropLast else lines
    | none => lines
  List.intercalate ['\n'] kept

/-- The text the repairer actually parses: the stripped raw response, with a
leading markdown code fence removed when present. -/
def preprocessed (raw : String) : List Char :=
  let t := pyStrip raw.data
  if "```".data.isPrefixOf t then fenceStrip t else t

/-- Python-dict membership test on an association list. -/
def hasKey (fs : List (String × JValue)) (k : String) : Bool :=
  fs.any (fun p => p.1 == k)

/-- Python-dict lookup on an association list: duplicate keys are last-wins,
as when the dict is built by repeated insertion during parsing. -/
def lookupLast (fs : List (String × JValue)) (k : String) : Option JValue :=
  ((fs.filter (fun p => p.1 == k)).getLast?).map (fun p => p.2)

/-- Guard for the `[{"text": "<json array string>"}]` wrapper (ocr.py lines
223-233): a one-element list whose only element is an object with a `text`
key and no `bbox` key, whose `text` string re-parses to a JSON list. -/
def wrapperRecovery (l : List JValue) : Option (List JValue) :=
  match l with
  | [JValue.obj fs] =>
    if hasKey fs "text" && !hasKey fs "bbox" then
      match lookupLast fs "text" with
      | some (JValue.str inner) =>
        match json_loads inner.data with
        | some (JValue.arr parsed) => some parsed
        | _ => none
      | _ => none
    else none
  | _ => none

/-- Recovery for a bare dict whose `text` field holds the actual array
(ocr.py lines 236-246): the field may already be a list, or a string that
re-parses to a list. -/
def textListRecovery (v : JValue) : Option (List JValue) :=
  match v with
  | JValue.obj fs =>
    if hasKey fs "text" then
      match lookupLast fs "text" with
      | some (JValue.arr inner) => some inner
      | some (JValue.str inner) =>
        match json_loads inner.data with
        | some (JValue.arr parsed) => some parsed
        | _ => none
      | _ => none
    else none
  | _ => none

/-- What `parse_bbox_response` does with a successfully parsed value (the
body of the `try` block, ocr.py lines 221-247). -/
def repairParsed (data : JValue) : List JValue :=
  match data with
  | JValue.arr l =>
    match wrapperRecovery l with
    | some parsed => parsed
    | none => l
  | _ =>
    match textListRecovery data with
    | some inner => inner
    | none => [data]

/-- The slice matched by `re.search(r"\[.*\]", text, re.DOTALL)`: from the
first `[` to the last `]`, when the latter comes after the former. -/
def bracketSlice (cs : List Char) : Option (List Char) :=
  match splitFirst '[' cs with
  | none => none
  | some (_, after) =>
    match splitFirst ']' after.reverse with
    | none => none
    | some (_, revRest) => some ('[' :: (revRest.reverse ++ [']']))

/-- The last-resort strategy (ocr.py lines 250-256): parse the greedy
bracket-delimited slice.  The slice starts with `[`, so a successful parse is
necessarily a list (`bracketSlice_loads_arr` below); the wildcard arm is
therefore unreachable. -/
def bracketSearch (cs : List Char) : Option (List JValue) :=
  match bracketSlice cs with
  | some sub =>
    match json_loads sub with
    | some (JValue.arr l) => some l
    | _ => none
  | none => none

/-- The fallback chunk built on total parse failure (ocr.py line 257). -/
def fallbackChunk (raw : String) : JValue :=
  JValue.obj [("text", JValue.str raw), ("bbox", JValue.null), ("parse_error", JValue.bool true)]

/-- Model of `parse_bbox_response` (ocr.py lines 209-257).  A total function:
every Python exception path is represented as data. -/
def parse_bbox_response (raw : String) : List JValue :=
  match json_loads (preprocessed raw) with
  | some data => repairParsed data
  | none =>
    match bracketSearch (preprocessed raw) with
    | some l => l
    | none => [fallbackChunk raw]

example : parse_bbox_response "hello world" = [fallbackChunk "hello world"] := rfl
example : parse_bbox_response "5" = [JValue.num "5"] := rfl
example : parse_bbox_response "[1,2,3]" = [JValue.num "1", JValue.num "2", JValue.num "3"] := rfl
example : parse_bbox_response "```json\n[1]\n```" = [JValue.num "1"] := rfl
example : parse_bbox_response "noise [1, 2] tail" = [JValue.num "1", JValue.num "2"] := rfl

/-- Successful parses of a bracket slice are always lists: the slice starts
with `[`, so the scanner necessarily enters the array branch. -/
theorem parseValueCore_bracket (pv : List Char → Option (JValue × List Char)) (tail : List Char) :
    parseValueCore pv ('[' :: tail) =
      match skipWs tail with
      | ']' :: r2 => some (JValue.arr [], r2)
      | r2 => (parseElems pv (r2.length + 1) r2).map (fun p => (JValue.arr p.1, p.2)) := rfl

theorem bracketSlice_loads_arr {cs sub : List Char} (h : bracketSlice cs = some sub)
    {v : JValue} (hv : json_loads sub = some v) : ∃ l, v = JValue.arr l := by
  obtain ⟨tail, rfl⟩ : ∃ t, sub = '[' :: t := by
    unfold bracketSlice at h
    split at h
    · exact absurd h (by simp)
    · split at h
      · exact absurd h (by simp)
      · exact ⟨_, (Option.some.injEq _ _ ▸ h.symm : _)⟩
  unfold json_loads at hv
  rw [show parseValue (('[' :: tail).length + 2) ('[' :: tail)
      = parseValueCore (parseValue (('[' :: tail).length + 1)) ('[' :: tail) from rfl] at hv
  rw [parseValueCore_bracket] at hv
  split at hv
  · rename_i v1 r1 heq
    have hv1 : v1 = v := by
      split at hv
      · exact Option.some.inj hv
      · exact absurd hv (by simp)
    subst hv1
    split at heq
    · exact ⟨[], by simp_all⟩
    · rw [Option.map_eq_some'] at heq
      obtain ⟨a, _, ha⟩ := heq
      exact ⟨a.1, by simp_all⟩
  · exact absurd hv (by simp)

/-- Shared branch analysis: when both the JSON parse and the bracket search
fail, the result is the single fallback chunk built from the raw input. -/
theorem parse_bbox_eq_fallback (raw : String)
    (h1 : json_loads (preprocessed raw) = none)
    (h2 : bracketSearch (preprocessed raw) = none) :
    parse_bbox_response raw = [fallbackChunk raw] := by
  unfold parse_bbox_response
  rw [h1, h2]

/-- Predicate from the spec's data model: a JSON number. -/
def isNumber : JValue → Bool
  | JValue.num _ => true
  | _ => false

/-- Validity of a Chunk per the spec's data model (section 3): an object with
a string `text` field whose `bbox` is exactly 4 numbers or absent/null. -/
def isValidChunk (v : JValue) : Bool :=
  match v with
  | JValue.obj fs =>
    (match lookupLast fs "text" with
     | some (JValue.str _) => true
     | _ => false)
    &&
    (match lookupLast fs "bbox" with
     | none => true
     | some JValue.null => true
     | some (JValue.arr xs) => xs.length == 4 && xs.all isNumber
     | some _ => false)
  | _ => false

/-- Whether a value is an object carrying `parse_error = true`. -/
def hasParseErrorFlag : JValue → Bool
  | JValue.obj fs =>
    (match lookupLast fs "parse_error" with
     | some (JValue.bool true) => true
     | _ => false)
  | _ => false

/-- Claim C1: the chunk-response repairer is total (the Lean model is a total
function by construction, mirroring that every exception path in the Python
is caught), and when every parsing strategy fails it returns exactly one
chunk whose `text` is the original unmodified raw input, with `bbox` null
and `parse_error` true. -/
theorem parse_bbox_response_fallback_exact (raw : String)
    (h1 : json_loads (preprocessed raw) = none)
    (h2 : bracketSearch (preprocessed raw) = none) :
    parse_bbox_response raw =
      [JValue.obj [("text", JValue.str raw), ("bbox", JValue.null),
        ("parse_error", JValue.bool true)]] :=
  parse_bbox_eq_fallback raw h1 h2

/-- Witness for C1 at the spec's own example, the non-JSON input
`"hello world"`. -/
theorem parse_bbox_response_fallback_exact_w :
    parse_bbox_response "hello world" =
      [JValue.obj [("text", JValue.str "hello world"), ("bbox", JValue.null),
        ("parse_error", JValue.bool true)]] :=
  parse_bbox_response_fallback_exact "hello world" rfl rfl

/-- Counterexample to claim C2: for input `"5"` the stripped text parses as
JSON to the number 5, which is neither a list nor a text-bearing object, yet
the repairer returns `[5]` rather than falling through to the bracket-search
strategy (which would fail here and end in the fallback chunk). -/
theorem parse_bbox_response_c2_cex :
    parse_bbox_response "5" = [JValue.num "5"] ∧
    bracketSearch (preprocessed "5") = none ∧
    JValue.num "5" ≠ fallbackChunk "5" :=
  ⟨rfl, rfl, by simp [fallbackChunk]⟩

/-- Claim C2 as amended: when the fence-stripped text parses as JSON but the
value is neither a list nor an object whose `text` field yields a list, the
repairer returns the one-element list wrapping that parsed value; the
bracket-search strategy is reached only when JSON parsing fails. -/
theorem parse_bbox_response_nonlist (raw : String) (v : JValue)
    (h : json_loads (preprocessed raw) = some v)
    (hnl : ∀ l, v ≠ JValue.arr l)
    (hnr : textListRecovery v = none) :
    parse_bbox_response raw = [v] := by
  have hbody : repairParsed v = [v] := by
    cases v with
    | arr l => exact absurd rfl (hnl l)
    | null => simp only [repairParsed, hnr]
    | bool b => simp only [repairParsed, hnr]
    | num lit => simp only [repairParsed, hnr]
    | str s => simp only [repairParsed, hnr]
    | obj fs => simp only [repairParsed, hnr]
  unfold parse_bbox_response
  rw [h]
  exact hbody

/-- Witness for the amended C2 at input `"5"`. -/
theorem parse_bbox_response_nonlist_w :
    parse_bbox_response "5" = [JValue.num "5"] :=
  parse_bbox_response_nonlist "5" (JValue.num "5") rfl (fun l h => by simp at h) rfl

/-- Counterexample to claim C3: input `"[1,2,3]"` parses to a JSON list whose
elements the repairer returns verbatim, so the result contains non-object
elements that are not valid Chunks. -/
theorem parse_bbox_response_c3_cex :
    parse_bbox_response "[1,2,3]" = [JValue.num "1", JValue.num "2", JValue.num "3"] ∧
    isValidChunk (JValue.num "1") = false :=
  ⟨rfl, rfl⟩

/-- Claim C3 as amended: the repairer performs no per-element validation (a
parsed list is returned verbatim and may contain non-objects), but in the
verbatim-raw fallback case every returned element is a valid Chunk carrying
`parse_error = true`. -/
theorem parse_bbox_response_fallback_valid (raw : String)
    (h1 : json_loads (preprocessed raw) = none)
    (h2 : bracketSearch (preprocessed raw) = none) :
    ∀ c ∈ parse_bbox_response raw, isValidChunk c = true ∧ hasParseErrorFlag c = true := by
  rw [parse_bbox_eq_fallback raw h1 h2]
  intro c hc
  rw [List.mem_singleton] at hc
  subst hc
  exact ⟨rfl, rfl⟩

/-- Witness for the amended C3 at the unparseable input `"oops ("`. -/
theorem parse_bbox_response_fallback_valid_w :
    isValidChunk (fallbackChunk "oops (") = true ∧
    hasParseErrorFlag (fallbackChunk "oops (") = true :=
  parse_bbox_response_fallback_valid "oops (" rfl rfl (fallbackChunk "oops (")
    (show fallbackChunk "oops (" ∈ [fallbackChunk "oops ("] from List.mem_singleton.mpr rfl)

/-! ### Page-range parsing (`parse_page_range`, ocr.py lines 83-96) -/

/-- Convert a nonempty all-digit character list to its value. -/
def digitsToNat? (l : List Char) : Option Nat :=
  if l = [] ∨ ¬ l.all Char.isDigit then none
  else some (l.foldl (fun a c => a * 10 + (c.toNat - 48)) 0)

/-- Model of Python's `int(str)`: strip whitespace, optional sign, then a
nonempty digit string. -/
def pyInt? (l : List Char) : Option Int :=
  match pyStrip l with
  | '-' :: ds => (digitsToNat? ds).map (fun n : Nat => -(n : Int))
  | '+' :: ds => (digitsToNat? ds).map (fun n : Nat => (n : Int))
  | ds => (digitsToNat? ds).map (fun n : Nat => (n : Int))

/-- The integers from `a` to `b` inclusive (Python `range(a, b + 1)`). -/
def intRange (a b : Int) : List Int :=
  (List.range (b + 1 - a).toNat).map (fun i : Nat => a + (i : Int))

/-- The pages a single comma-separated token contributes (the body of the
loop in ocr.py lines 86-95): a hyphenated token yields the inclusive range
with only its end clamped to `total`; a plain integer is kept only when it
lies in `[1, total]`.  `none` models the `ValueError` from `int`. -/
def tokenPages (part : List Char) (total : Int) : Option (List Int) :=
  match splitFirst '-' (pyStrip part) with
  | some (a, b) =>
    match pyInt? a, pyInt? b with
    | some s, some e => some (intRange s (min e total))
    | _, _ => none
  | none =>
    match pyInt? (pyStrip part) with
    | some p => some (if 1 ≤ p ∧ p ≤ total then [p] else [])
    | none => none

/-- Process every token, failing if any token fails (Python raises at the
first bad token, so success requires all tokens to parse). -/
def collectPages (parts : List (List Char)) (total : Int) : Option (List Int) :=
  match parts with
  | [] => some []
  | p :: ps =>
    match tokenPages p total, collectPages ps total with
    | some c, some r => some (c ++ r)
    | _, _ => none

/-- Insert into a strictly-ascending list, dropping duplicates. -/
def insertSorted (x : Int) : List Int → List Int
  | [] => [x]
  | y :: ys =>
    if x < y then x :: y :: ys
    else if x = y then y :: ys
    else y :: insertSorted x ys

/-- Model of Python's `sorted(set(...))`: the duplicate-free ascending
enumeration of the collected elements. -/
def sortedDedup (l : List Int) : List Int := l.foldr insertSorted []

/-- Model of `parse_page_range(spec, total)` (ocr.py lines 83-96). -/
def parse_page_range (spec : String) (total : Int) : Option (List Int) :=
  (collectPages (splitOnChar ',' spec.data) total).map sortedDedup

/-- Model of the caller's page selection (ocr.py lines 312-316): an explicit
selector goes through `parse_page_range`; no selector means all pages. -/
def resolvePages (sel : Option String) (total : Int) : Option (List Int) :=
  match sel with
  | some s => parse_page_range s total
  | none => some (intRange 1 total)

example : parse_page_range "2,4,7-9" 10 = some [2, 4, 7, 8, 9] := rfl
example : parse_page_range "1-5" 3 = some [1, 2, 3] := rfl
example : parse_page_range "2,2,1-3" 5 = some [1, 2, 3] := rfl
example : parse_page_range "0-2" 5 = some [0, 1, 2] := rfl
example : parse_page_range "3" 5 = some [3] := rfl
example : parse_page_range "7" 5 = some [] := rfl
example : parse_page_range "x" 5 = none := rfl
example : resolvePages none 5 = some [1, 2, 3, 4, 5] := rfl

theorem mem_insertSorted {x a : Int} : ∀ {l : List Int}, a ∈ insertSorted x l ↔ a = x ∨ a ∈ l := by
  intro l
  induction l with
  | nil => simp [insertSorted]
  | cons y ys ih =>
    unfold insertSorted
    split
    · simp [List.mem_cons]
    · split
      · rename_i h1 h2
        subst h2
        simp [List.mem_cons]
      · simp only [List.mem_cons, ih]
        tauto

theorem pairwise_insertSorted {x : Int} :
    ∀ {l : List Int}, l.Pairwise (· < ·) → (insertSorted x l).Pairwise (· < ·) := by
  intro l
  induction l with
  | nil => intro _; simp [insertSorted]
  | cons y ys ih =>
    intro h
    rw [List.pairwise_cons] at h
    obtain ⟨hy, hys⟩ := h
    unfold insertSorted
    split
    · rename_i hxy
      rw [List.pairwise_cons]
      refine ⟨?_, ?_⟩
      · intro a ha
        rw [List.mem_cons] at ha
        rcases ha with rfl | ha
        · exact hxy
        · exact lt_trans hxy (hy a ha)
      · rw [List.pairwise_cons]
        exact ⟨hy, hys⟩
    · split
      · rename_i h1 h2
        rw [List.pairwise_cons]
        exact ⟨hy, hys⟩
      · rename_i h1 h2
        rw [List.pairwise_cons]
        refine ⟨?_, ih hys⟩
        intro a ha
        rw [mem_insertSorted] at ha
        rcases ha with rfl | ha
        · omega
        · exact hy a ha

theorem sortedDedup_pairwise (l : List Int) : (sortedDedup l).Pairwise (· < ·) := by
  induction l with
  | nil => simp [sortedDedup]
  | cons x xs ih => exact pairwise_insertSorted ih

theorem mem_sortedDedup {a : Int} : ∀ {l : List Int}, a ∈ sortedDedup l ↔ a ∈ l := by
  intro l
  induction l with
  | nil => simp [sortedDedup]
  | cons x xs ih =>
    show a ∈ insertSorted x (sortedDedup xs) ↔ _
    rw [mem_insertSorted, ih, List.mem_cons]

theorem collectPages_mem {parts : List (List Char)} {total : Int} {r : List Int}
    (h : collectPages parts total = some r) {p : Int} :
    p ∈ r ↔ ∃ part ∈ parts, ∃ c, tokenPages part total = some c ∧ p ∈ c := by
  induction parts generalizing r with
  | nil =>
    unfold collectPages at h
    injection h with h
    subst h
    simp
  | cons q qs ih =>
    unfold collectPages at h
    split at h
    · rename_i c r0 hq hqs
      injection h with h
      subst h
      rw [List.mem_append, ih hqs]
      constructor
      · rintro (hp | ⟨part, hpart, c1, hc1, hp1⟩)
        · exact ⟨q, List.mem_cons_self q qs, c, hq, hp⟩
        · exact ⟨part, List.mem_cons_of_mem q hpart, c1, hc1, hp1⟩
      · rintro ⟨part, hpart, c1, hc1, hp1⟩
        rw [List.mem_cons] at hpart
        rcases hpart with rfl | hpart
        · rw [hq] at hc1
          injection hc1 with hc1
          subst hc1
          exact Or.inl hp1
        · exact Or.inr ⟨part, hpart, c1, hc1, hp1⟩
    · exact absurd h (by simp)

theorem splitFirst_not_mem {c : Char} :
    ∀ {l a b : List Char}, splitFirst c l = some (a, b) → c ∉ a := by
  intro l
  induction l with
  | nil => intro a b h; simp [splitFirst] at h
  | cons x xs ih =>
    intro a b h
    unfold splitFirst at h
    split at h
    · injection h with h
      rw [Prod.mk.injEq] at h
      rw [← h.1]
      simp
    · rename_i hxc
      rw [Option.map_eq_some'] at h
      obtain ⟨pq, hpq, hview⟩ := h
      rw [Prod.mk.injEq] at hview
      rw [← hview.1]
      intro hmem
      rw [List.mem_cons] at hmem
      rcases hmem with h1 | h1
      · exact hxc h1.symm
      · exact ih hpq h1

theorem mem_pyStrip {x : Char} {l : List Char} (h : x ∈ pyStrip l) : x ∈ l := by
  unfold pyStrip at h
  rw [List.mem_reverse] at h
  have h2 : x ∈ (l.dropWhile pyWs).reverse := List.Sublist.mem h (List.dropWhile_sublist _)
  rw [List.mem_reverse] at h2
  exact List.Sublist.mem h2 (List.dropWhile_sublist _)

theorem pyInt_nonneg {l : List Char} (hm : '-' ∉ l) {n : Int}
    (h : pyInt? l = some n) : 0 ≤ n := by
  unfold pyInt? at h
  split at h
  · rename_i ds heq
    have hmem : '-' ∈ pyStrip l := by rw [heq]; exact List.mem_cons_self _ _
    exact absurd (mem_pyStrip hmem) hm
  · rw [Option.map_eq_some'] at h
    obtain ⟨k, _, rfl⟩ := h
    exact Int.natCast_nonneg k
  · rw [Option.map_eq_some'] at h
    obtain ⟨k, _, rfl⟩ := h
    exact Int.natCast_nonneg k

theorem mem_intRange {p a b : Int} : p ∈ intRange a b ↔ a ≤ p ∧ p ≤ b := by
  unfold intRange
  simp only [List.mem_map, List.mem_range]
  constructor
  · rintro ⟨i, hi, rfl⟩
    omega
  · rintro ⟨h1, h2⟩
    exact ⟨(p - a).toNat, by omega, by omega⟩

theorem tokenPages_bounds {part : List Char} {total : Int} {c : List Int}
    (h : tokenPages part total = some c) : ∀ p ∈ c, 0 ≤ p ∧ p ≤ total := by
  unfold tokenPages at h
  split at h
  · rename_i a b heq
    split at h
    · rename_i s e hs he
      injection h with h
      subst h
      intro p hp
      rw [mem_intRange] at hp
      have hs0 : 0 ≤ s := pyInt_nonneg (fun hmem => splitFirst_not_mem heq hmem) hs
      have hmin : min e total ≤ total := min_le_right e total
      omega
    · exact absurd h (by simp)
  · split at h
    · rename_i p0 hp0
      injection h with h
      subst h
      intro p hp
      split at hp
      · rename_i hcond
        rw [List.mem_singleton] at hp
        subst hp
        omega
      · simp at hp
    · exact absurd h (by simp)

/-- Claim C4: the page-range resolver splits on commas, a hyphenated token
contributes the inclusive range from its start to `min(end, total)` (only
the end clamped), a plain token `p` is kept iff `1 ≤ p ≤ total`, the result
is the duplicate-free ascending sort of all contributions, and with no
selector the selection is the full range — including the spec's concrete
examples. -/
theorem parse_page_range_resolution :
    resolvePages (some "2,4,7-9") 10 = some [2, 4, 7, 8, 9] ∧
    resolvePages (some "1-5") 3 = some [1, 2, 3] ∧
    resolvePages (some "2,2,1-3") 5 = some [1, 2, 3] ∧
    resolvePages none 5 = some [1, 2, 3, 4, 5] ∧
    ∀ (spec : String) (total : Int) (l : List Int),
      parse_page_range spec total = some l →
      l.Pairwise (· < ·) ∧
      ∀ p : Int, p ∈ l ↔ ∃ part ∈ splitOnChar ',' spec.data,
        ∃ c, tokenPages part total = some c ∧ p ∈ c := by
  refine ⟨rfl, rfl, rfl, rfl, ?_⟩
  intro spec total l h
  unfold parse_page_range at h
  rw [Option.map_eq_some'] at h
  obtain ⟨raw, hc, rfl⟩ := h
  refine ⟨sortedDedup_pairwise raw, ?_⟩
  intro p
  rw [mem_sortedDedup]
  exact collectPages_mem hc

/-- Witness for C4 at the spec's example `resolve("2,4,7-9", 10)`. -/
theorem parse_page_range_resolution_w :
    ([2, 4, 7, 8, 9] : List Int).Pairwise (· < ·) ∧
    ∀ p : Int, p ∈ ([2, 4, 7, 8, 9] : List Int) ↔
      ∃ part ∈ splitOnChar ',' "2,4,7-9".data,
        ∃ c, tokenPages part 10 = some c ∧ p ∈ c :=
  parse_page_range_resolution.2.2.2.2 "2,4,7-9" 10 [2, 4, 7, 8, 9] rfl

/-- Counterexample to claim C5: a hyphenated token's start is not clamped or
validated, so `resolve("0-2", 5)` returns `[0, 1, 2]`, whose first element
lies outside `[1, total]`. -/
theorem parse_page_range_c5_cex :
    parse_page_range "0-2" 5 = some [0, 1, 2] ∧
    (0 : Int) ∈ ([0, 1, 2] : List Int) ∧ ¬ (1 ≤ (0 : Int)) :=
  ⟨rfl, by simp, by omega⟩

/-- Claim C5 as amended: every successful result is strictly ascending with
no duplicates and every element is at most `total` and nonnegative; plain
integer tokens only contribute values in `[1, total]`, but a hyphenated
token's unvalidated start can contribute values below 1 (never below 0,
since a parseable start has no sign). -/
theorem parse_page_range_invariant (spec : String) (total : Int) (l : List Int)
    (h : parse_page_range spec total = some l) :
    l.Pairwise (· < ·) ∧ l.Nodup ∧ ∀ p ∈ l, 0 ≤ p ∧ p ≤ total := by
  unfold parse_page_range at h
  rw [Option.map_eq_some'] at h
  obtain ⟨raw, hc, rfl⟩ := h
  refine ⟨sortedDedup_pairwise raw, (sortedDedup_pairwise raw).imp ne_of_lt, ?_⟩
  intro p hp
  rw [mem_sortedDedup] at hp
  obtain ⟨part, _, c, hc1, hp1⟩ := (collectPages_mem hc).mp hp
  exact tokenPages_bounds hc1 p hp1

/-- Witness for the amended C5 at `resolve("0-3", 5)`. -/
theorem parse_page_range_invariant_w :
    ([0, 1, 2, 3] : List Int).Pairwise (· < ·) ∧
    ([0, 1, 2, 3] : List Int).Nodup ∧
    ∀ p ∈ ([0, 1, 2, 3] : List Int), 0 ≤ p ∧ p ≤ 5 :=
  parse_page_range_invariant "0-3" 5 [0, 1, 2, 3] rfl

/-! ### Fill-zone normalization (`normalize_fill_zones`, ocr.py lines 101-106) -/

/-- The fill characters of the regex `([.\-_])\1{3,}`. -/
def isFill (c : Char) : Bool := c = '.' || c = '-' || c = '_'

/-- Fuel-indexed model of `_FILL_RE.sub('___', text)`: scan left to right; at
a fill character followed by at least three more copies of itself, the whole
run is replaced by `___` and scanning resumes after it (`re.sub` does not
rescan the replacement); otherwise the character is copied.  The fuel only
drives structural recursion; `subFill` supplies enough. -/
def subFillF : Nat → List Char → List Char
  | 0, l => l
  | _ + 1, [] => []
  | f + 1, c :: rest =>
    if isFill c = true ∧ 3 ≤ countLeading c rest then
      '_' :: '_' :: '_' :: subFillF f (rest.drop (countLeading c rest))
    else c :: subFillF f rest

/-- The regex substitution on a character list. -/
def subFill (l : List Char) : List Char := subFillF l.length l

/-- Model of `normalize_fill_zones` (ocr.py lines 103-106). -/
def normalize_fill_zones (s : String) : String := String.mk (subFill s.data)

/-- Fuel-indexed decomposition of a list into maximal runs `(char, count)`. -/
def runsOfF : Nat → List Char → List (Char × Nat)
  | 0, _ => []
  | _ + 1, [] => []
  | f + 1, c :: rest =>
    (c, countLeading c rest + 1) :: runsOfF f (rest.drop (countLeading c rest))

/-- Maximal-run decomposition of a character list. -/
def runsOf (l : List Char) : List (Char × Nat) := runsOfF l.length l

/-- What the claim says a maximal run becomes: `___` when it is four or more
identical fill characters, itself otherwise. -/
def runText (r : Char × Nat) : List Char :=
  if isFill r.1 = true ∧ 4 ≤ r.2 then ['_', '_', '_'] else List.replicate r.2 r.1

/-- The claim-side normalizer: replace each maximal run of four or more
identical fill characters by the literal `___`, keep everything else. -/
def runNormalize (s : String) : String :=
  String.mk ((runsOf s.data).map runText).flatten

/-- Whether the string contains a run of four or more identical fill
characters. -/
def hasFillRun (s : String) : Bool :=
  (runsOf s.data).any (fun r => isFill r.1 && decide (4 ≤ r.2))

example : normalize_fill_zones "Name...........: John" = "Name___: John" := rfl
example : normalize_fill_zones "....----" = "______" := rfl
example : normalize_fill_zones "______" = "___" := rfl
example : normalize_fill_zones "a...b" = "a...b" := rfl

theorem countLeading_le (c : Char) : ∀ l : List Char, countLeading c l ≤ l.length := by
  intro l
  induction l with
  | nil => simp [countLeading]
  | cons x xs ih =>
    unfold countLeading
    split
    · simpa using ih
    · simp

theorem countLeading_take (c : Char) :
    ∀ l : List Char, l.take (countLeading c l) = List.replicate (countLeading c l) c := by
  intro l
  induction l with
  | nil => simp [countLeading]
  | cons x xs ih =>
    unfold countLeading
    split
    · rename_i hx
      subst hx
      rw [List.take_succ_cons, List.replicate_succ, ih]
    · simp

theorem subFillF_fuel : ∀ (f g : Nat) (l : List Char), l.length ≤ f → l.length ≤ g →
    subFillF f l = subFillF g l := by
  intro f
  induction f with
  | zero =>
    intro g l hf hg
    have hl : l = [] := List.eq_nil_of_length_eq_zero (Nat.le_zero.mp hf)
    subst hl
    cases g <;> rfl
  | succ f ih =>
    intro g l hf hg
    cases l with
    | nil => cases g <;> rfl
    | cons c rest =>
      cases g with
      | zero => simp at hg
      | succ g1 =>
        show (if isFill c = true ∧ 3 ≤ countLeading c rest then
            '_' :: '_' :: '_' :: subFillF f (rest.drop (countLeading c rest))
          else c :: subFillF f rest) = (if isFill c = true ∧ 3 ≤ countLeading c rest then
            '_' :: '_' :: '_' :: subFillF g1 (rest.drop (countLeading c rest))
          else c :: subFillF g1 rest)
        have hrf : rest.length ≤ f := by simpa using hf
        have hrg : rest.length ≤ g1 := by simpa using hg
        have hdf : (rest.drop (countLeading c rest)).length ≤ f := by
          rw [List.length_drop]; omega
        have hdg : (rest.drop (countLeading c rest)).length ≤ g1 := by
          rw [List.length_drop]; omega
        by_cases h : isFill c = true ∧ 3 ≤ countLeading c rest
        · rw [if_pos h, if_pos h, ih g1 _ hdf hdg]
        · rw [if_neg h, if_neg h, ih g1 rest hrf hrg]

theorem subFill_cons (c : Char) (rest : List Char) :
    subFill (c :: rest) =
      if isFill c = true ∧ 3 ≤ countLeading c rest then
        '_' :: '_' :: '_' :: subFill (rest.drop (countLeading c rest))
      else c :: subFill rest := by
  show (if isFill c = true ∧ 3 ≤ countLeading c rest then
      '_' :: '_' :: '_' :: subFillF rest.length (rest.drop (countLeading c rest))
    else c :: subFillF rest.length rest) = _
  by_cases h : isFill c = true ∧ 3 ≤ countLeading c rest
  · rw [if_pos h, if_pos h]
    rw [subFillF_fuel rest.length (rest.drop (countLeading c rest)).length _
      (by rw [List.length_drop]; omega) le_rfl]
    rfl
  · rw [if_neg h, if_neg h]
    rfl

theorem runsOfF_fuel : ∀ (f g : Nat) (l : List Char), l.length ≤ f → l.length ≤ g →
    runsOfF f l = runsOfF g l := by
  intro f
  induction f with
  | zero =>
    intro g l hf hg
    have hl : l = [] := List.eq_nil_of_length_eq_zero (Nat.le_zero.mp hf)
    subst hl
    cases g <;> rfl
  | succ f ih =>
    intro g l hf hg
    cases l with
    | nil => cases g <;> rfl
    | cons c rest =>
      cases g with
      | zero => simp at hg
      | succ g1 =>
        show (c, countLeading c rest + 1) :: runsOfF f (rest.drop (countLeading c rest))
          = (c, countLeading c rest + 1) :: runsOfF g1 (rest.drop (countLeading c rest))
        have hdf : (rest.drop (countLeading c rest)).length ≤ f := by
          rw [List.length_drop]
          have := countLeading_le c rest
          simp at hf
          omega
        have hdg : (rest.drop (countLeading c rest)).length ≤ g1 := by
          rw [List.length_drop]
          simp at hg
          omega
        rw [ih g1 _ hdf hdg]

theorem runsOf_cons (c : Char) (rest : List Char) :
    runsOf (c :: rest) =
      (c, countLeading c rest + 1) :: runsOf (rest.drop (countLeading c rest)) := by
  show (c, countLeading c rest + 1) :: runsOfF rest.length (rest.drop (countLeading c rest)) = _
  rw [runsOfF_fuel rest.length (rest.drop (countLeading c rest)).length _
    (by rw [List.length_drop]; omega) le_rfl]
  rfl

theorem subFill_run (c : Char) : ∀ l : List Char, (isFill c = true → countLeading c l ≤ 2) →
    subFill l = List.replicate (countLeading c l) c ++ subFill (l.drop (countLeading c l)) := by
  intro l
  induction l with
  | nil => intro _; simp [countLeading]
  | cons x xs ih =>
    intro h
    by_cases hx : x = c
    · subst hx
      have hcnt : countLeading x (x :: xs) = countLeading x xs + 1 := by
        simp [countLeading]
      rw [hcnt, subFill_cons]
      have hle : isFill x = true → countLeading x xs ≤ 1 := by
        intro hf
        have := h hf
        rw [hcnt] at this
        omega
      have hnot : ¬ (isFill x = true ∧ 3 ≤ countLeading x xs) := by
        rintro ⟨hf, h3⟩
        have := hle hf
        omega
      rw [if_neg hnot, ih (fun hf => by have := hle hf; omega)]
      simp [List.replicate_succ]
    · have hcnt : countLeading c (x :: xs) = 0 := by
        simp only [countLeading, if_neg hx]
      rw [hcnt]
      simp

theorem subFill_eq_runs_aux : ∀ (n : Nat) (l : List Char), l.length ≤ n →
    subFill l = ((runsOf l).map runText).flatten := by
  intro n
  induction n with
  | zero =>
    intro l hl
    have : l = [] := List.eq_nil_of_length_eq_zero (Nat.le_zero.mp hl)
    subst this
    rfl
  | succ n ih =>
    intro l hl
    cases l with
    | nil => rfl
    | cons c rest =>
      rw [subFill_cons, runsOf_cons, List.map_cons, List.flatten_cons]
      have hrest : rest.length ≤ n := by simpa using hl
      have hdrop : (rest.drop (countLeading c rest)).length ≤ n := by
        rw [List.length_drop]; omega
      by_cases h : isFill c = true ∧ 3 ≤ countLeading c rest
      · rw [if_pos h]
        have hrt : runText (c, countLeading c rest + 1) = ['_', '_', '_'] := by
          unfold runText
          exact if_pos ⟨h.1, by omega⟩
        rw [hrt, ih _ hdrop]
        rfl
      · rw [if_neg h]
        have hrt : runText (c, countLeading c rest + 1)
            = List.replicate (countLeading c rest + 1) c := by
          unfold runText
          refine if_neg ?_
          rintro ⟨hf, h4⟩
          exact h ⟨hf, by omega⟩
        rw [hrt]
        have hle : isFill c = true → countLeading c rest ≤ 2 := by
          intro hf
          by_contra hgt
          exact h ⟨hf, by omega⟩
        rw [subFill_run c rest hle, ih _ hdrop]
        simp [List.replicate_succ]

theorem subFill_eq_runs (l : List Char) : subFill l = ((runsOf l).map runText).flatten :=
  subFill_eq_runs_aux l.length l le_rfl

theorem runsOf_flatten_aux : ∀ (n : Nat) (l : List Char), l.length ≤ n →
    ((runsOf l).map (fun r : Char × Nat => List.replicate r.2 r.1)).flatten = l := by
  intro n
  induction n with
  | zero =>
    intro l hl
    have : l = [] := List.eq_nil_of_length_eq_zero (Nat.le_zero.mp hl)
    subst this
    rfl
  | succ n ih =>
    intro l hl
    cases l with
    | nil => rfl
    | cons c rest =>
      rw [runsOf_cons, List.map_cons, List.flatten_cons]
      have hdrop : (rest.drop (countLeading c rest)).length ≤ n := by
        rw [List.length_drop]
        have := countLeading_le c rest
        simp at hl
        omega
      rw [ih _ hdrop]
      rw [List.replicate_succ, List.cons_append]
      rw [← countLeading_take c rest, List.take_append_drop]

theorem runsOf_flatten (l : List Char) :
    ((runsOf l).map (fun r : Char × Nat => List.replicate r.2 r.1)).flatten = l :=
  runsOf_flatten_aux l.length l le_rfl

theorem noFillRun_subFill_eq {l : List Char}
    (h : ∀ r ∈ runsOf l, ¬ (isFill r.1 = true ∧ 4 ≤ r.2)) : subFill l = l := by
  rw [subFill_eq_runs]
  have hmap : (runsOf l).map runText = (runsOf l).map (fun r : Char × Nat => List.replicate r.2 r.1) := by
    apply List.map_congr_left
    intro r hr
    unfold runText
    exact if_neg (h r hr)
  rw [hmap, runsOf_flatten]

/-- Strings with no run of four or more identical fill characters are left
unchanged by the normalizer. -/
theorem normalize_fill_zones_noRun (s : String) (h : hasFillRun s = false) :
    normalize_fill_zones s = s := by
  unfold hasFillRun at h
  have hr : ∀ r ∈ runsOf s.data, ¬ (isFill r.1 = true ∧ 4 ≤ r.2) := by
    intro r hrm hand
    have hfalse := (List.any_eq_false.mp h) r hrm
    rw [hand.1] at hfalse
    simp [hand.2] at hfalse
  unfold normalize_fill_zones
  rw [noFillRun_subFill_eq hr]

/-- Counterexample to claim C6: the normalizer is not idempotent.  In
`"....----"` the two replaced runs abut, producing `"______"`, a fresh run
of six underscores that a second pass collapses to `"___"`. -/
theorem normalize_fill_zones_c6_cex :
    normalize_fill_zones "....----" = "______" ∧
    normalize_fill_zones "______" = "___" ∧
    normalize_fill_zones (normalize_fill_zones "....----") ≠ normalize_fill_zones "....----" :=
  ⟨rfl, rfl, by decide⟩

/-- Claim C6 as amended: the normalizer is idempotent on every string whose
normalization contains no run of four or more identical fill characters;
in general a replacement can abut adjacent fill characters and create such
a run, so idempotence can fail. -/
theorem normalize_fill_zones_idem (s : String)
    (h : hasFillRun (normalize_fill_zones s) = false) :
    normalize_fill_zones (normalize_fill_zones s) = normalize_fill_zones s :=
  normalize_fill_zones_noRun (normalize_fill_zones s) h

/-- Witness for the amended C6 at `"a...b"` (three dots: below threshold). -/
theorem normalize_fill_zones_idem_w :
    normalize_fill_zones (normalize_fill_zones "a...b") = normalize_fill_zones "a...b" :=
  normalize_fill_zones_idem "a...b" rfl

/-- Claim C7: the normalizer replaces each maximal run of four or more
consecutive identical fill characters with the literal `___` (it agrees
with the run-based normalizer everywhere), leaves strings with no such run
unchanged, and maps the spec's example accordingly. -/
theorem normalize_fill_zones_spec :
    (∀ s : String, normalize_fill_zones s = runNormalize s) ∧
    (∀ s : String, hasFillRun s = false → normalize_fill_zones s = s) ∧
    normalize_fill_zones "Name...........: John" = "Name___: John" := by
  refine ⟨?_, normalize_fill_zones_noRun, rfl⟩
  intro s
  unfold normalize_fill_zones runNormalize
  rw [subFill_eq_runs]

/-- Witness for C7: agreement and the no-run clause at concrete strings. -/
theorem normalize_fill_zones_spec_w :
    normalize_fill_zones "a.b" = runNormalize "a.b" ∧ normalize_fill_zones "a.b" = "a.b" :=
  ⟨normalize_fill_zones_spec.1 "a.b", normalize_fill_zones_spec.2.1 "a.b" rfl⟩

theorem subFill_length_aux : ∀ (n : Nat) (l : List Char), l.length ≤ n →
    (subFill l).length ≤ l.length := by
  intro n
  induction n with
  | zero =>
    intro l hl
    have : l = [] := List.eq_nil_of_length_eq_zero (Nat.le_zero.mp hl)
    subst this
    simp [subFill, subFillF]
  | succ n ih =>
    intro l hl
    cases l with
    | nil => simp [subFill, subFillF]
    | cons c rest =>
      rw [subFill_cons]
      have hrest : rest.length ≤ n := by simpa using hl
      by_cases h : isFill c = true ∧ 3 ≤ countLeading c rest
      · rw [if_pos h]
        have hdrop : (rest.drop (countLeading c rest)).length ≤ n := by
          rw [List.length_drop]; omega
        have h1 := ih _ hdrop
        have h2 := countLeading_le c rest
        simp only [List.length_cons, List.length_drop] at *
        omega
      · rw [if_neg h]
        have h1 := ih rest hrest
        simp only [List.length_cons]
        omega

/-- Claim C10: the fill-zone normalizer never lengthens its input. -/
theorem normalize_fill_zones_length (s : String) :
    (normalize_fill_zones s).length ≤ s.length :=
  subFill_length_aux s.data.length s.data le_rfl

/-! ### Stream aggregation (the loop in `ocr_image_base64`, ocr.py lines 191-204) -/

/-- The first (and in practice only) choice of a streamed chunk: an optional
content delta and an optional finish reason. -/
structure StreamChoice where
  content : Option String
  finish_reason : Option String

/-- One streamed chunk, as consumed by the aggregation loop. -/
structure StreamChunk where
  choices : List StreamChoice

/-- One iteration of the aggregation loop (ocr.py lines 193-200): chunks
without choices are skipped; a truthy (non-None, nonempty) content delta is
appended; a truthy finish reason overwrites the tracked one. -/
def aggStep (acc : List String × Option String) (ck : StreamChunk) :
    List String × Option String :=
  match ck.choices.head? with
  | none => acc
  | some choice =>
    ((match choice.content with
      | some s => if s = "" then acc.1 else acc.1 ++ [s]
      | none => acc.1),
     (match choice.finish_reason with
      | some r => if r = "" then acc.2 else some r
      | none => acc.2))

/-- Model of the aggregation (ocr.py lines 191-204): the joined deltas and
whether the loop ends with `finish_reason == "length"` (the condition under
which the truncation warning is printed). -/
def aggregate (stream : List StreamChunk) : String × Bool :=
  (String.join (stream.foldl aggStep ([], none)).1,
   (stream.foldl aggStep ([], none)).2 == some "length")

/-- The text delta a chunk presents, if any. -/
def chunkDelta (ck : StreamChunk) : Option String :=
  match ck.choices.head? with
  | some choice => choice.content
  | none => none

/-- The truthy terminal reason a chunk presents, if any. -/
def chunkFinish (ck : StreamChunk) : Option String :=
  match ck.choices.head? with
  | some choice =>
    (match choice.finish_reason with
     | some r => if r = "" then none else some r
     | none => none)
  | none => none

/-- Concatenation of every present text delta, in arrival order. -/
def streamText (stream : List StreamChunk) : String :=
  String.join (stream.filterMap chunkDelta)

/-- The most recently observed terminal reason of the stream, if any. -/
def lastFinish : List StreamChunk → Option String
  | [] => none
  | ck :: t =>
    match lastFinish t with
    | some r => some r
    | none => chunkFinish ck

theorem str_append_empty (s : String) : s ++ "" = s := by
  apply String.ext
  rw [String.data_append]
  exact List.append_nil s.data

theorem str_append_assoc (a b c : String) : a ++ b ++ c = a ++ (b ++ c) := by
  apply String.ext
  simp only [String.data_append]
  exact List.append_assoc a.data b.data c.data

theorem strJoin_cons (s : String) (l : List String) :
    String.join (s :: l) = s ++ String.join l := by
  show List.foldl (· ++ ·) ("" ++ s) l = s ++ List.foldl (· ++ ·) "" l
  have haux : ∀ (l : List String) (a : String),
      List.foldl (· ++ ·) a l = a ++ List.foldl (· ++ ·) "" l := by
    intro l
    induction l with
    | nil => intro a; exact (str_append_empty a).symm
    | cons x xs ih =>
      intro a
      rw [List.foldl_cons, List.foldl_cons, ih (a ++ x), ih ("" ++ x)]
      rw [show ("" : String) ++ x = x from String.ext (by simp [String.data_append])]
      exact str_append_assoc a x _
  rw [haux l ("" ++ s)]
  rw [show ("" : String) ++ s = s from String.ext (by simp [String.data_append])]

theorem strJoin_filter_empty (l : List String) :
    String.join (l.filter (fun s => !(s == ""))) = String.join l := by
  induction l with
  | nil => rfl
  | cons s t ih =>
    by_cases hs : s = ""
    · subst hs
      rw [List.filter_cons_of_neg (by simp), ih, strJoin_cons]
      exact (String.ext (by simp [String.data_append])).symm
    · rw [List.filter_cons_of_pos (by simp [hs]), strJoin_cons, strJoin_cons, ih]

theorem agg_parts (stream : List StreamChunk) :
    ∀ acc : List String × Option String,
      (stream.foldl aggStep acc).1
        = acc.1 ++ (stream.filterMap chunkDelta).filter (fun s => !(s == "")) := by
  induction stream with
  | nil => intro acc; simp
  | cons ck t ih =>
    intro acc
    rw [List.foldl_cons, ih]
    cases hh : ck.choices.head? with
    | none => simp [aggStep, chunkDelta, hh]
    | some choice =>
      cases hc : choice.content with
      | none => simp [aggStep, chunkDelta, hh, hc]
      | some s =>
        by_cases hs : s = ""
        · subst hs
          simp [aggStep, chunkDelta, hh, hc]
        · simp [aggStep, chunkDelta, hh, hc, hs]

theorem agg_fin (stream : List StreamChunk) :
    ∀ acc : List String × Option String,
      (stream.foldl aggStep acc).2
        = match lastFinish stream with
          | some r => some r
          | none => acc.2 := by
  induction stream with
  | nil => intro acc; rfl
  | cons ck t ih =>
    intro acc
    rw [List.foldl_cons, ih]
    cases hl : lastFinish t with
    | some r => simp [lastFinish, hl]
    | none =>
      simp only [lastFinish, hl]
      cases hh : ck.choices.head? with
      | none => simp [aggStep, chunkFinish, hh]
      | some choice =>
        cases hf : choice.finish_reason with
        | none => simp [aggStep, chunkFinish, hh, hf]
        | some r =>
          by_cases hr : r = ""
          · subst hr
            simp [aggStep, chunkFinish, hh, hf]
          · simp [aggStep, chunkFinish, hh, hf, hr]

/-- Claim C8: the aggregator returns the concatenation of all present text
deltas in arrival order, reports truncation exactly when the most recently
observed terminal reason is `"length"`, and treats a final `"stop"` or a
stream with no terminal reason as not truncated. -/
theorem aggregate_spec (stream : List StreamChunk) :
    (aggregate stream).1 = streamText stream ∧
    ((aggregate stream).2 = true ↔ lastFinish stream = some "length") ∧
    (lastFinish stream = some "stop" → (aggregate stream).2 = false) ∧
    (lastFinish stream = none → (aggregate stream).2 = false) := by
  have hp := agg_parts stream ([], none)
  have hf := agg_fin stream ([], none)
  have h2 : (aggregate stream).2 = (lastFinish stream == some "length") := by
    show ((stream.foldl aggStep ([], none)).2 == some "length")
      = (lastFinish stream == some "length")
    rw [hf]
    cases lastFinish stream <;> rfl
  refine ⟨?_, ?_, ?_, ?_⟩
  · show String.join (stream.foldl aggStep ([], none)).1 = streamText stream
    rw [hp]
    simp only [List.nil_append]
    exact strJoin_filter_empty _
  · rw [h2]
    simp
  · intro h
    rw [h2, h]
    rfl
  · intro h
    rw [h2, h]
    rfl

/-- Witness for C8 on a two-chunk stream ending with reason `"stop"`. -/
theorem aggregate_spec_w :
    (aggregate [StreamChunk.mk [StreamChoice.mk (some "Hel") none],
       StreamChunk.mk [StreamChoice.mk (some "lo") (some "stop")]]).1
      = streamText [StreamChunk.mk [StreamChoice.mk (some "Hel") none],
          StreamChunk.mk [StreamChoice.mk (some "lo") (some "stop")]] ∧
    (aggregate [StreamChunk.mk [StreamChoice.mk (some "Hel") none],
       StreamChunk.mk [StreamChoice.mk (some "lo") (some "stop")]]).2 = false :=
  ⟨(aggregate_spec _).1, (aggregate_spec _).2.2.1 rfl⟩

example :
    (aggregate [StreamChunk.mk [StreamChoice.mk (some "Hel") none],
       StreamChunk.mk [StreamChoice.mk (some "lo") (some "stop")]]).1 = "Hello" := rfl
example :
    (aggregate [StreamChunk.mk [StreamChoice.mk (some "a") (some "length")]]).2 = true := rfl

/-! ### JSON document assembly (ocr.py lines 343-348 and 358-363) -/

/-- One page's JSON result as accumulated by the main loop: the page label
and its chunk list (ocr.py line 348 stores `{source: label, regions: ...}`). -/
structure PageResult where
  source : String
  regions : List JValue

/-- The `{source, regions}` envelope object for one page. -/
def envelope (r : PageResult) : JValue :=
  JValue.obj [("source", JValue.str r.source), ("regions", JValue.arr r.regions)]

/-- Model of the json-format output assembly (ocr.py lines 358-363): a single
page is flattened to its bare regions array; otherwise the envelopes are
emitted in order. -/
def assembleJson : List PageResult → JValue
  | [r] => JValue.arr r.regions
  | rs => JValue.arr (rs.map envelope)

/-- Claim C9: with exactly one page result the output is the bare chunk
array (no source/regions envelope); with two or more page results it is the
array of `{source, regions}` objects in input order. -/
theorem assembleJson_spec :
    (∀ r : PageResult, assembleJson [r] = JValue.arr r.regions) ∧
    (∀ rs : List PageResult, 2 ≤ rs.length → assembleJson rs = JValue.arr (rs.map envelope)) := by
  refine ⟨fun r => rfl, ?_⟩
  intro rs h
  cases rs with
  | nil => simp at h
  | cons a t =>
    cases t with
    | nil => simp at h
    | cons b t2 => rfl

/-- Witness for C9 at a concrete two-page input. -/
theorem assembleJson_spec_w :
    assembleJson [PageResult.mk "page 1" [], PageResult.mk "page 2" []]
      = JValue.arr ([PageResult.mk "page 1" [], PageResult.mk "page 2" []].map envelope) :=
  assembleJson_spec.2 [PageResult.mk "page 1" [], PageResult.mk "page 2" []] (by simp)

end OcrSpec
